import Mathlib

/-!
Verification of the transcript parser and trick simulator in
`src/preprocess/main.py` of the bridge_trick_prediction repository.

Strings of the Python source are embedded as `List Char`.  A Python
function that can raise an exception (out-of-range string indexing) is
embedded with an `Option` result, `none` meaning the exception
propagates.  A Python function that can *return* `None` while also being
able to raise is embedded as `Option (Option _)`: the outer layer is the
exception, the inner layer the `None` return.
-/

/-- Embedding of Python `str.strip()` (both ends, whitespace). -/
def pystrip (s : List Char) : List Char :=
  ((s.dropWhile Char.isWhitespace).reverse.dropWhile Char.isWhitespace).reverse

/-- Embedding of Python `str.split(sep)` for a one-character separator:
empty pieces are kept, and the empty string splits to one empty piece. -/
def pysplit (sep : Char) : List Char → List (List Char)
  | [] => [[]]
  | c :: rest =>
    if c = sep then [] :: pysplit sep rest
    else
      match pysplit sep rest with
      | [] => [[c]]
      | piece :: more => (c :: piece) :: more

/-- Numeric value of a run of decimal digit characters. -/
def digitsVal (s : List Char) : Nat :=
  s.foldl (fun a c => a * 10 + (c.toNat - 48)) 0

/-- Embedding of Python `int(s)` on an already-stripped string: an
optional sign followed by a nonempty run of decimal digits; any other
shape raises `ValueError`, embedded as `none`.  (Python also accepts
digit-group underscores and non-ASCII digits; no transcript and no claim
exercises those, so they are not modelled.) -/
def pyInt : List Char → Option Int
  | [] => none
  | '-' :: rest =>
    if rest ≠ [] ∧ rest.all Char.isDigit then some (-(digitsVal rest : Int)) else none
  | '+' :: rest =>
    if rest ≠ [] ∧ rest.all Char.isDigit then some ((digitsVal rest : Int)) else none
  | s =>
    if s.all Char.isDigit then some ((digitsVal s : Int)) else none

/-- Python truthiness of an optional string: `None` and the empty string
are falsy. -/
def truthyStr : Option (List Char) → Bool
  | none => false
  | some l => !l.isEmpty

/-- The CARD_VALUES dictionary of the source, with the Python
`dict.get(rank, 0)` default folded in: unknown rank characters give 0. -/
def CARD_VALUES (c : Char) : Nat :=
  if c = '2' then 2 else if c = '3' then 3 else if c = '4' then 4
  else if c = '5' then 5 else if c = '6' then 6 else if c = '7' then 7
  else if c = '8' then 8 else if c = '9' then 9 else if c = 'T' then 10
  else if c = 'J' then 11 else if c = 'Q' then 12 else if c = 'K' then 13
  else if c = 'A' then 14 else 0

/-- The suit_map dictionary inside get_trump_from_bidding. -/
def suit_map (c : Char) : Option (List Char) :=
  if c = 'C' then some ['C'] else if c = 'D' then some ['D']
  else if c = 'H' then some ['H'] else if c = 'S' then some ['S']
  else if c = 'N' then some ['N', 'T'] else none

/-- The membership test `bid[1] in 'CDHSN'` of the source. -/
def isStrainChar (c : Char) : Bool :=
  c = 'C' ∨ c = 'D' ∨ c = 'H' ∨ c = 'S' ∨ c = 'N'

/-- Loop body of get_trump_from_bidding: the bidding sequence is walked
in reversed order; a bid qualifies when, stripped and upper-cased, it
has at least two characters, its first character is a decimal digit and
its second is one of C, D, H, S, N. -/
def trump_scan : List (List Char) → Option (List Char)
  | [] => none
  | bid :: rest =>
    match (pystrip bid).map Char.toUpper with
    | c0 :: c1 :: _ =>
      if c0.isDigit ∧ isStrainChar c1 then suit_map c1 else trump_scan rest
    | _ => trump_scan rest

/-- Embedding of get_trump_from_bidding (src/preprocess/main.py lines
15-27). -/
def get_trump_from_bidding (bidding_sequence : List (List Char)) : Option (List Char) :=
  if bidding_sequence.isEmpty then none
  else trump_scan bidding_sequence.reverse

/-- Embedding of get_card_value (lines 72-83).  Reads `card[0]` and
`card[1]`, so a card of fewer than two characters raises IndexError,
embedded as `none`. -/
def get_card_value (card : List Char) (led_suit : Char) (trump_suit : Option (List Char)) :
    Option Nat :=
  match card with
  | suitc :: rankc :: _ =>
    let suit := suitc.toUpper
    let base_value := CARD_VALUES rankc
    if truthyStr trump_suit = true ∧ trump_suit = some [suit] then some (100 + base_value)
    else if suit = led_suit then some base_value
    else some 0
  | _ => none

/-- Loop of determine_trick_winner over the cards after the first,
carrying the current winning card, player and value; the current winner
is replaced exactly when a later card's value is strictly greater. -/
def winner_loop (led_suit : Char) (trump_suit : Option (List Char)) :
    List (List Char × Nat) → List Char → Nat → Nat → Option (List Char × Nat)
  | [], wc, wp, _ => some (wc, wp)
  | (card, player) :: rest, wc, wp, wv =>
    match get_card_value card led_suit trump_suit with
    | none => none
    | some v =>
      if wv < v then winner_loop led_suit trump_suit rest card player v
      else winner_loop led_suit trump_suit rest wc wp wv

/-- Embedding of determine_trick_winner (lines 58-70).  The led suit is
the upper-cased first character of the first card; an empty trick or an
empty first card raises, embedded as `none`. -/
def determine_trick_winner (trick_cards : List (List Char × Nat))
    (trump_suit : Option (List Char)) : Option (List Char × Nat) :=
  match trick_cards with
  | [] => none
  | (c0, p0) :: rest =>
    match c0 with
    | [] => none
    | s :: _ =>
      let led_suit := s.toUpper
      match get_card_value c0 led_suit trump_suit with
      | none => none
      | some wv => winner_loop led_suit trump_suit rest c0 p0 wv

/-- The two partnership strings used by calculate_tricks_won_by_declarer. -/
inductive Side
  | NS
  | EW
deriving DecidableEq

/-- The `declarer_side` assignment of line 38: the declaring side is the
partnership that does not contain the first player. -/
def declarer_side_of (first_player_index : Nat) : Side :=
  if first_player_index = 0 ∨ first_player_index = 2 then Side.EW else Side.NS

/-- The credit test of lines 50-51. -/
def credited (declarer_side : Side) (winning_player : Nat) : Prop :=
  (declarer_side = Side.NS ∧ (winning_player = 0 ∨ winning_player = 2)) ∨
  (declarer_side = Side.EW ∧ (winning_player = 1 ∨ winning_player = 3))

instance (s : Side) (w : Nat) : Decidable (credited s w) := by
  unfold credited; infer_instance

/-- Main loop of calculate_tricks_won_by_declarer (lines 44-54): cards
are appended to the current trick with the current leader index, the
leader index advances mod 4, and each time the current trick reaches
four cards its winner is determined, the tally is bumped when the winner
is on the declaring side, the winner leads the next trick, and the
current trick resets.  Cards left over in an incomplete final trick are
never examined. -/
def calc_go (trump_suit : Option (List Char)) (declarer_side : Side) :
    List (List Char) → List (List Char × Nat) → Nat → Nat → Option Nat
  | [], _, _, acc => some acc
  | card :: rest, current_trick, current_leader, acc =>
    let trick2 := current_trick ++ [(card, current_leader)]
    let leader2 := (current_leader + 1) % 4
    if trick2.length = 4 then
      match determine_trick_winner trick2 trump_suit with
      | none => none
      | some (_, winning_player) =>
        let acc2 := if credited declarer_side winning_player then acc + 1 else acc
        calc_go trump_suit declarer_side rest [] winning_player acc2
    else calc_go trump_suit declarer_side rest trick2 leader2 acc

/-- Embedding of calculate_tricks_won_by_declarer (lines 29-56).  The
outer `Option` is an exception escaping from determine_trick_winner; the
inner `Option` is the Python `None` returned for an empty play
sequence. -/
def calculate_tricks_won_by_declarer (play_sequence : List (List Char))
    (trump_suit : Option (List Char)) (first_player_index : Nat) : Option (Option Nat) :=
  if play_sequence.isEmpty then some none
  else
    match calc_go trump_suit (declarer_side_of first_player_index) play_sequence [] first_player_index 0 with
    | none => none
    | some n => some (some n)

/-- One character is a suit letter for the hand-string regex character
class `[SHDC]`. -/
def isSuitChar (c : Char) : Bool :=
  c = 'S' ∨ c = 'H' ∨ c = 'D' ∨ c = 'C'

/-- One character is a rank letter for the hand-string regex character
class `[2-9AKQJT]`. -/
def isRankChar (c : Char) : Bool :=
  ('2' ≤ c ∧ c ≤ '9') ∨ c = 'A' ∨ c = 'K' ∨ c = 'Q' ∨ c = 'J' ∨ c = 'T'

/-- Scan for the non-overlapping, leftmost, greedy matches of the regex
`([SHDC])([2-9AKQJT]+)` used by hand_contains_card: a suit letter
followed by a maximal nonempty run of rank characters.  Written with
explicit fuel (one unit per examined character, which over-counts the
consumption of a real match) so that concrete inputs reduce
definitionally. -/
def suitGroupsGo : Nat → List Char → List (Char × List Char)
  | 0, _ => []
  | _, [] => []
  | fuel + 1, c :: rest =>
    if isSuitChar c = true ∧ (rest.takeWhile isRankChar).isEmpty = false then
      (c, rest.takeWhile isRankChar) :: suitGroupsGo fuel (rest.dropWhile isRankChar)
    else suitGroupsGo fuel rest

/-- The `suit_pattern.findall(hand)` of the source. -/
def findSuitGroups (hand : List Char) : List (Char × List Char) :=
  suitGroupsGo hand.length hand

/-- Embedding of hand_contains_card (lines 127-135).  Reads `card[0]`
and `card[1]`, so a card of fewer than two characters raises IndexError,
embedded as `none`. -/
def hand_contains_card (hand : List Char) (card : List Char) : Option Bool :=
  match card with
  | suitc :: rankc :: _ =>
    let suit := suitc.toUpper
    some ((findSuitGroups hand).any (fun g => g.1 = suit && g.2.contains rankc))
  | _ => none

/-- Loop of determine_first_player over the enumerated hands. -/
def first_player_scan (first_card : List Char) : List (List Char) → Nat → Option (Option Nat)
  | [], _ => some none
  | hand :: rest, i =>
    match hand_contains_card hand first_card with
    | none => none
    | some true => some (some i)
    | some false => first_player_scan first_card rest (i + 1)

/-- Embedding of determine_first_player (lines 119-125): the index of
the first hand containing the first card, Python `None` (inner layer)
when the card is empty, the hands are absent or no hand matches, and an
escaping exception (outer layer) when a nonempty card has no second
character. -/
def determine_first_player (first_card : List Char) (hands : List (List Char)) :
    Option (Option Nat) :=
  if first_card.isEmpty ∨ hands.isEmpty then some none
  else first_player_scan first_card hands 0

/-- The per-board record assembled by the parser: the four comma-split
hand strings, the opening-lead card, the trick count and the trump
strain.  All fields start as Python `None`. -/
structure Board where
  hands : Option (List (List Char))
  first_card : Option (List Char)
  tricks : Option Int
  trump : Option (List Char)
deriving DecidableEq

/-- The mutable state of parse_bridge_file: the emitted boards, the
board under construction (`none` embeds the empty dict), the play and
bidding sequences and the in_board flag. -/
structure PState where
  boards : List Board
  current_board : Option Board
  play : List (List Char)
  bidding : List (List Char)
  in_board : Bool
deriving DecidableEq

/-- Python `current_board.get(key)` for the first_card key: an empty
dict gives `None`. -/
def board_get_first_card : Option Board → Option (List Char)
  | none => none
  | some b => b.first_card

/-- Python `current_board['hands'] = hands`: setting a key on the empty
dict creates it. -/
def board_set_hands : Option Board → List (List Char) → Board
  | none, hs => { hands := some hs, first_card := none, tricks := none, trump := none }
  | some b, hs => { b with hands := some hs }

/-- Python `current_board['first_card'] = card`. -/
def board_set_first_card : Option Board → List Char → Board
  | none, c => { hands := none, first_card := some c, tricks := none, trump := none }
  | some b, c => { b with first_card := some c }

/-- Python `current_board['tricks'] = n`. -/
def board_set_tricks : Option Board → Int → Board
  | none, n => { hands := none, first_card := none, tricks := some n, trump := none }
  | some b, n => { b with tricks := some n }

/-- The body of flush_board after the hands check (lines 95-112): set
the trump from the bidding, simulate the trick count when none was given
explicitly and a play sequence exists, and return the finalized board.
`none` is an IndexError escaping from the card lookups. -/
def finalize_board (b : Board) (hs : List (List Char)) (play bidding : List (List Char)) :
    Option Board :=
  let trump_suit := get_trump_from_bidding bidding
  let b1 : Board := { b with trump := trump_suit }
  if b1.tricks = none ∧ play.isEmpty = false then
    match determine_first_player (play.headD []) hs with
    | none => none
    | some none => some b1
    | some (some fp) =>
      match calculate_tricks_won_by_declarer play trump_suit fp with
      | none => none
      | some none => some b1
      | some (some n) => some { b1 with tricks := some (n : Int) }
  else some b1

/-- The reset state shared by every exit of flush_board (lines 114-117):
clear the current board, the play and bidding sequences and the in_board
flag, keeping the emitted boards. -/
def reset_after_flush (boards : List Board) : PState :=
  { boards := boards, current_board := none, play := [], bidding := [], in_board := false }

/-- Embedding of flush_board (lines 92-117): when the current board is a
nonempty dict with truthy hands it is finalized and appended to the
emitted boards exactly when it has a trick count or a truthy opening
lead; in every case the per-board state is reset. -/
def flush_board (st : PState) : Option PState :=
  match st.current_board with
  | none => some (reset_after_flush st.boards)
  | some b =>
    match b.hands with
    | none => some (reset_after_flush st.boards)
    | some hs =>
      if hs.isEmpty then some (reset_after_flush st.boards)
      else
        match finalize_board b hs st.play st.bidding with
        | none => none
        | some b2 =>
          if b2.tricks ≠ none ∨ truthyStr b2.first_card = true then
            some (reset_after_flush (st.boards ++ [b2]))
          else some (reset_after_flush st.boards)

/-- Embedding of the token dispatch of parse_bridge_file (lines
139-177).  A token is a (tag, data) pair as produced by the tag
pattern. -/
def pstep (st : PState) (tok : List Char × List Char) : Option PState :=
  let tag := tok.1
  let data := tok.2
  if tag = ['q', 'x'] then
    match flush_board st with
    | none => none
    | some st1 =>
      some { st1 with
              current_board := some { hands := none, first_card := none, tricks := none, trump := none },
              in_board := true, play := [], bidding := [] }
  else if tag = ['m', 'd'] ∧ st.in_board = true then
    let hands := pysplit ',' data
    if hands.length = 4 then
      some { st with current_board := some (board_set_hands st.current_board hands) }
    else some st
  else if tag = ['m', 'b'] ∧ st.in_board = true then
    some { st with bidding := st.bidding ++ [pystrip data] }
  else if tag = ['p', 'c'] ∧ st.in_board = true then
    let card := pystrip data
    let st1 := { st with play := st.play ++ [card] }
    if board_get_first_card st.current_board = none then
      some { st1 with current_board := some (board_set_first_card st1.current_board card) }
    else some st1
  else if tag = ['m', 'c'] ∧ st.in_board = true then
    match pyInt (pystrip data) with
    | some n => some { st with current_board := some (board_set_tricks st.current_board n) }
    | none => some st
  else some st

/-- The initial parser state. -/
def init_pstate : PState :=
  { boards := [], current_board := none, play := [], bidding := [], in_board := false }

/-- Embedding of the whole token loop of parse_bridge_file plus the
final flush (lines 137-179): the emitted boards, or `none` when an
exception aborts the parse. -/
def parse_bridge_tokens (toks : List (List Char × List Char)) : Option (List Board) :=
  match List.foldlM pstep init_pstate toks with
  | none => none
  | some st =>
    match flush_board st with
    | none => none
    | some st2 => some st2.boards

/-- The five tag alternatives of the tag pattern (line 7), in lowercase
exactly as written in the source regex. -/
def tag_candidates : List (List Char) :=
  [['q', 'x'], ['m', 'd'], ['m', 'b'], ['p', 'c'], ['m', 'c']]

/-- Try to match one alternative of the tag pattern
`(qx|[^|]+| or md|... or mb|... or pc|... or mc|...)` at the head of the
text: two exact lowercase tag characters, a bar, a nonempty maximal run
of non-bar characters, a bar.  Returns the token and the rest of the
text after the match. -/
def matchToken : List Char → Option ((List Char × List Char) × List Char)
  | t0 :: t1 :: c2 :: rest =>
    if c2 = '|' ∧ [t0, t1] ∈ tag_candidates then
      let data := rest.takeWhile (fun c => ¬ c = '|')
      if data.isEmpty then none
      else
        match rest.drop data.length with
        | c3 :: after => if c3 = '|' then some (([t0, t1], data), after) else none
        | [] => none
    else none
  | _ => none

/-- The finditer scan of the tag pattern over one line: at each position
the pattern is tried; a match is consumed whole, otherwise the scan
advances one character.  Fuel (one unit per position) keeps the
definition structurally recursive; `line.length` units always suffice
because every step consumes at least one character. -/
def tokenizeGo : Nat → List Char → List (List Char × List Char)
  | 0, _ => []
  | _ + 1, [] => []
  | fuel + 1, c :: rest =>
    match matchToken (c :: rest) with
    | some (tok, after) => tok :: tokenizeGo fuel after
    | none => tokenizeGo fuel rest

/-- Tokenization of one input line by the tag pattern (line 7 of the
source). -/
def tokenize (line : List Char) : List (List Char × List Char) :=
  tokenizeGo line.length line

/-- Embedding of parse_bridge_file on the list of input lines: tokens
are collected per line (the regex never spans lines) and fed to the
token loop.  The CSV serialization of the emitted boards carries no
further logic and is not modelled. -/
def parse_bridge_file (lines : List (List Char)) : Option (List Board) :=
  parse_bridge_tokens (lines.flatMap tokenize)

/-- One bid qualifies for the backward scan of get_trump_from_bidding,
exactly as the source tests it: stripped and upper-cased it has at least
two characters, the first is any decimal digit and the second a strain
letter. -/
def bid_qualifies (bid : List Char) : Bool :=
  match (pystrip bid).map Char.toUpper with
  | c0 :: c1 :: _ => c0.isDigit && isStrainChar c1
  | _ => false

/-- Modelled from the spec: the qualification rule as the claim words
it, with the level restricted to the numeric range 1-7 rather than an
arbitrary decimal digit.  Used only to compare the claimed rule with the
source rule. -/
def bid_qualifies_spec (bid : List Char) : Bool :=
  match (pystrip bid).map Char.toUpper with
  | c0 :: c1 :: _ => ('1' ≤ c0 && c0 ≤ '7') && isStrainChar c1
  | _ => false

/-- Modelled from the spec: trump extraction with the claimed 1-7 level
restriction; scan from the last bid toward the first and map the strain
of the first qualifying bid. -/
def get_trump_spec (bidding_sequence : List (List Char)) : Option (List Char) :=
  match bidding_sequence.reverse.find? bid_qualifies_spec with
  | none => none
  | some bid =>
    match (pystrip bid).map Char.toUpper with
    | _ :: c1 :: _ => suit_map c1
    | _ => none

/-- Modelled from the spec: events seen by the seat-assigning bid
accumulator of spec section 4.2, which is absent from
src/preprocess/main.py (there, bids are stored without seats, lines
164-165).  A hands event carries the dealer digit; a bid event carries
the raw bid token. -/
inductive BEvent
  | hands (dealer : Nat)
  | bid (tok : List Char)

/-- Modelled from the spec: state of the seat-assigning accumulator.
`seat_order` is the seat index (0 North, 1 East, 2 South, 3 West) of the
dealer once known; `pending` buffers bids that arrived before it;
`assigned` is the seat-assigned bid sequence. -/
structure AccState where
  seat_order : Option Nat
  pending : List (List Char)
  assigned : List (List Char × Nat)

/-- Modelled from the spec: the seat of the k-th bid of the auction when
the dealer sits at seat index `start` - the clockwise rotation starting
at the dealer. -/
def assign_seat (start k : Nat) : Nat := (start + k) % 4

/-- Modelled from the spec: assign seats to a buffered token list in its
original arrival order, in one pass, continuing the rotation after `k`
already-assigned bids. -/
def assign_all (start k : Nat) : List (List Char) → List (List Char × Nat)
  | [] => []
  | t :: ts => (t, assign_seat start k) :: assign_all start (k + 1) ts

/-- Modelled from the spec (section 4.2): the accumulator step.  A bid
is buffered while the seat order is unknown and assigned live otherwise;
the hands event fixes the seat order from the dealer digit (digit 1 is
North, so the rotation starts at `dealer - 1`) and retroactively assigns
every buffered bid in one pass. -/
def acc_step (st : AccState) : BEvent → AccState
  | BEvent.hands d =>
    let start := d - 1
    { seat_order := some start, pending := [],
      assigned := st.assigned ++ assign_all start st.assigned.length st.pending }
  | BEvent.bid tok =>
    match st.seat_order with
    | none => { st with pending := st.pending ++ [tok] }
    | some start =>
      { st with assigned := st.assigned ++ [(tok, assign_seat start st.assigned.length)] }

/-- Modelled from the spec: the accumulator starts with no seat order,
no buffered bids and no assigned bids. -/
def acc_init : AccState := { seat_order := none, pending := [], assigned := [] }

/-- Modelled from the spec: run the accumulator over an event list. -/
def acc_run (events : List BEvent) : AccState :=
  events.foldl acc_step acc_init

example : get_trump_from_bidding [['1', 'C'], ['P'], ['2', 'N'], ['P']] = some ['N', 'T'] := by
  decide

example :
    determine_trick_winner
      [(['C', '5'], 0), (['C', '9'], 1), (['S', 'A'], 2), (['C', '2'], 3)] (some ['S']) =
      some (['S', 'A'], 2) := by decide

example :
    calculate_tricks_won_by_declarer
      [['S', '2'], ['S', '3'], ['S', '4'], ['S', '5'],
       ['H', '5'], ['H', '2'], ['H', '3'], ['H', '4'],
       ['D', '2'], ['D', '3'], ['D', '4']] none 0 = some (some 2) := by decide

example :
    tokenize (("qx|o1|md|a,b,c,d|mc|7|").toList) =
      [(['q', 'x'], ['o', '1']),
       (['m', 'd'], ("a,b,c,d").toList),
       (['m', 'c'], ['7'])] := by decide

example :
    parse_bridge_file [("qx|o1|md|a,b,c,d|mc|7|").toList] =
      some [{ hands := some [['a'], ['b'], ['c'], ['d']], first_card := none,
              tricks := some 7, trump := none }] := by decide

example : parse_bridge_file [("qx|o1|md|a,b,c,d|pc|S|").toList] = none := by decide

example : hand_contains_card (("SAK2HQJDT9C87").toList) ['H', 'Q'] = some true := by decide

example : hand_contains_card (("SAK2HQJDT9C87").toList) ['H', '3'] = some false := by decide

/-- A board passing the emission gate of flush_board: its hands are
present (four comma-split hand strings) and it carries an outcome - a
trick count or a truthy opening-lead card. -/
def EmitOK (b : Board) : Prop :=
  (∃ hs, b.hands = some hs ∧ hs.length = 4) ∧
  (b.tricks ≠ none ∨ truthyStr b.first_card = true)

/-- Invariant of the parser state: every emitted board passes the
emission gate, and the hands of the board under construction, when set,
are exactly four. -/
def ParseInv (st : PState) : Prop :=
  (∀ b ∈ st.boards, EmitOK b) ∧
  (∀ b hs, st.current_board = some b → b.hands = some hs → hs.length = 4)

/-- The winner loop keeps the current winner when every remaining card
values no higher (the comparison of line 67 is strict). -/
lemma winner_loop_keep (led : Char) (trump : Option (List Char)) :
    ∀ (rest : List (List Char × Nat)) (wc : List Char) (wp wv : Nat),
      (∀ cp ∈ rest, ∃ v, get_card_value cp.1 led trump = some v ∧ v ≤ wv) →
      winner_loop led trump rest wc wp wv = some (wc, wp) := by
  intro rest
  induction rest with
  | nil => intro wc wp wv _; rfl
  | cons cp rest ih =>
    intro wc wp wv h
    obtain ⟨c, p⟩ := cp
    obtain ⟨v, hv, hle⟩ := h (c, p) (by simp)
    simp only [winner_loop, hv]
    rw [if_neg (by omega)]
    exact ih wc wp wv (fun x hx => h x (by simp [hx]))

/-- The winner loop lands on a card that values strictly above the
current winner and strictly above every other remaining card. -/
lemma winner_loop_find (led : Char) (trump : Option (List Char)) (cm : List Char) (pm vm : Nat)
    (hm : get_card_value cm led trump = some vm) :
    ∀ (xs ys : List (List Char × Nat)) (wc : List Char) (wp wv : Nat),
      wv < vm →
      (∀ cp ∈ xs, ∃ v, get_card_value cp.1 led trump = some v ∧ v < vm) →
      (∀ cp ∈ ys, ∃ v, get_card_value cp.1 led trump = some v ∧ v < vm) →
      winner_loop led trump (xs ++ (cm, pm) :: ys) wc wp wv = some (cm, pm) := by
  intro xs
  induction xs with
  | nil =>
    intro ys wc wp wv hwv _ hys
    simp only [List.nil_append, winner_loop, hm]
    rw [if_pos hwv]
    exact winner_loop_keep led trump ys cm pm vm
      (fun cp hcp => by obtain ⟨v, hv, hlt⟩ := hys cp hcp; exact ⟨v, hv, le_of_lt hlt⟩)
  | cons cp xs ih =>
    intro ys wc wp wv hwv hxs hys
    obtain ⟨c, p⟩ := cp
    obtain ⟨v, hv, hlt⟩ := hxs (c, p) (by simp)
    simp only [List.cons_append, winner_loop, hv]
    by_cases hcmp : wv < v
    · rw [if_pos hcmp]
      exact ih ys c p v hlt (fun x hx => hxs x (by simp [hx])) hys
    · rw [if_neg hcmp]
      exact ih ys wc wp wv hwv (fun x hx => hxs x (by simp [hx])) hys

/-- The winner returned by the loop is the incoming winner or one of the
remaining cards. -/
lemma winner_loop_mem (led : Char) (trump : Option (List Char)) :
    ∀ (rest : List (List Char × Nat)) (wc : List Char) (wp wv : Nat) (w : List Char × Nat),
      winner_loop led trump rest wc wp wv = some w → w = (wc, wp) ∨ w ∈ rest := by
  intro rest
  induction rest with
  | nil =>
    intro wc wp wv w h
    simp only [winner_loop, Option.some.injEq] at h
    exact Or.inl h.symm
  | cons cp rest ih =>
    intro wc wp wv w h
    obtain ⟨c, p⟩ := cp
    simp only [winner_loop] at h
    rcases hv : get_card_value c led trump with _ | v
    · simp only [hv] at h; cases h
    · simp only [hv] at h
      by_cases hcmp : wv < v
      · rw [if_pos hcmp] at h
        rcases ih c p v w h with h1 | h1
        · exact Or.inr (by simp [h1])
        · exact Or.inr (by simp [h1])
      · rw [if_neg hcmp] at h
        rcases ih wc wp wv w h with h1 | h1
        · exact Or.inl h1
        · exact Or.inr (by simp [h1])

/-- The trick winner is one of the cards of the trick. -/
lemma determine_trick_winner_mem (trick : List (List Char × Nat)) (trump : Option (List Char))
    (w : List Char × Nat) (h : determine_trick_winner trick trump = some w) : w ∈ trick := by
  match trick with
  | [] => cases h
  | ([], p0) :: rest => simp only [determine_trick_winner] at h; cases h
  | (s :: tl, p0) :: rest =>
    simp only [determine_trick_winner] at h
    rcases hv : get_card_value (s :: tl) s.toUpper trump with _ | wv
    · simp only [hv] at h; cases h
    · simp only [hv] at h
      rcases winner_loop_mem s.toUpper trump rest (s :: tl) p0 wv w h with h1 | h1
      · simp [h1]
      · simp [h1]

/-- Processing one complete trick inside the main simulation loop: the
first four cards form a trick led by the current leader with seats
advancing mod 4, its winner is scored against the declaring side, and
the winner leads the remaining cards. -/
lemma calc_go_unroll (trump : Option (List Char)) (side : Side)
    (c1 c2 c3 c4 : List Char) (rest : List (List Char)) (L acc : Nat) :
    calc_go trump side (c1 :: c2 :: c3 :: c4 :: rest) [] L acc =
      match determine_trick_winner
          [(c1, L), (c2, (L + 1) % 4), (c3, ((L + 1) % 4 + 1) % 4),
           (c4, (((L + 1) % 4 + 1) % 4 + 1) % 4)] trump with
      | none => none
      | some (_, wp) =>
        calc_go trump side rest [] wp (if credited side wp then acc + 1 else acc) := by
  rfl

/-- C1: in a complete four-card trick the led suit is the suit of the
first card, each card ranks as 100 plus its rank value when its suit is
the trump strain, its rank value alone when its suit is the led suit and
0 otherwise, the card with the strictly highest rank wins, the winner's
seat leads the next trick, and in Scenario B (led suit C, cards C5, C9,
SA, C2, trump S) the player of SA wins. -/
theorem c1_trick_ranking_and_winner :
    (∀ (s r : Char) (t : List Char) (led : Char) (trump : Option (List Char)),
      get_card_value (s :: r :: t) led trump =
        some (if trump = some [s.toUpper] then 100 + CARD_VALUES r
              else if s.toUpper = led then CARD_VALUES r else 0)) ∧
    (∀ (s0 : Char) (t0 c1 c2 c3 : List Char) (p0 p1 p2 p3 : Nat)
        (trump : Option (List Char)) (v0 v1 v2 v3 : Nat),
      get_card_value (s0 :: t0) s0.toUpper trump = some v0 →
      get_card_value c1 s0.toUpper trump = some v1 →
      get_card_value c2 s0.toUpper trump = some v2 →
      get_card_value c3 s0.toUpper trump = some v3 →
      ((v1 < v0 → v2 < v0 → v3 < v0 →
          determine_trick_winner [(s0 :: t0, p0), (c1, p1), (c2, p2), (c3, p3)] trump =
            some (s0 :: t0, p0)) ∧
       (v0 < v1 → v2 < v1 → v3 < v1 →
          determine_trick_winner [(s0 :: t0, p0), (c1, p1), (c2, p2), (c3, p3)] trump =
            some (c1, p1)) ∧
       (v0 < v2 → v1 < v2 → v3 < v2 →
          determine_trick_winner [(s0 :: t0, p0), (c1, p1), (c2, p2), (c3, p3)] trump =
            some (c2, p2)) ∧
       (v0 < v3 → v1 < v3 → v2 < v3 →
          determine_trick_winner [(s0 :: t0, p0), (c1, p1), (c2, p2), (c3, p3)] trump =
            some (c3, p3)))) ∧
    (determine_trick_winner
        [(['C', '5'], 0), (['C', '9'], 1), (['S', 'A'], 2), (['C', '2'], 3)] (some ['S']) =
      some (['S', 'A'], 2)) ∧
    (∀ (trump : Option (List Char)) (side : Side) (c1 c2 c3 c4 : List Char)
        (rest : List (List Char)) (L acc : Nat),
      calc_go trump side (c1 :: c2 :: c3 :: c4 :: rest) [] L acc =
        match determine_trick_winner
            [(c1, L), (c2, (L + 1) % 4), (c3, ((L + 1) % 4 + 1) % 4),
             (c4, (((L + 1) % 4 + 1) % 4 + 1) % 4)] trump with
        | none => none
        | some (_, wp) =>
          calc_go trump side rest [] wp (if credited side wp then acc + 1 else acc)) := by
  refine ⟨?_, ?_, by decide, fun trump side c1 c2 c3 c4 rest L acc => calc_go_unroll ..⟩
  · intro s r t led trump
    simp only [get_card_value]
    by_cases ht : trump = some [s.toUpper]
    · rw [if_pos ⟨by simp [ht, truthyStr], ht⟩, if_pos ht]
    · rw [if_neg (by tauto), if_neg ht]
      by_cases hl : s.toUpper = led
      · rw [if_pos hl, if_pos hl]
      · rw [if_neg hl, if_neg hl]
  · intro s0 t0 c1 c2 c3 p0 p1 p2 p3 trump v0 v1 v2 v3 h0 h1 h2 h3
    refine ⟨fun ha hb hc => ?_, fun ha hb hc => ?_, fun ha hb hc => ?_, fun ha hb hc => ?_⟩ <;>
      simp only [determine_trick_winner, h0]
    · exact winner_loop_keep _ _ _ _ _ _ (by
        intro cp hcp
        simp only [List.mem_cons, List.not_mem_nil, or_false] at hcp
        rcases hcp with h | h | h <;> subst h
        · exact ⟨v1, h1, le_of_lt ha⟩
        · exact ⟨v2, h2, le_of_lt hb⟩
        · exact ⟨v3, h3, le_of_lt hc⟩)
    · exact winner_loop_find _ _ _ _ _ h1 [] [(c2, p2), (c3, p3)] _ _ _ ha (by simp) (by
        intro cp hcp
        simp only [List.mem_cons, List.not_mem_nil, or_false] at hcp
        rcases hcp with h | h <;> subst h
        · exact ⟨v2, h2, hb⟩
        · exact ⟨v3, h3, hc⟩)
    · exact winner_loop_find _ _ _ _ _ h2 [(c1, p1)] [(c3, p3)] _ _ _ ha (by
        intro cp hcp
        simp only [List.mem_cons, List.not_mem_nil, or_false] at hcp
        subst hcp
        exact ⟨v1, h1, hb⟩) (by
        intro cp hcp
        simp only [List.mem_cons, List.not_mem_nil, or_false] at hcp
        subst hcp
        exact ⟨v3, h3, hc⟩)
    · exact winner_loop_find _ _ _ _ _ h3 [(c1, p1), (c2, p2)] [] _ _ _ ha (by
        intro cp hcp
        simp only [List.mem_cons, List.not_mem_nil, or_false] at hcp
        rcases hcp with h | h <;> subst h
        · exact ⟨v1, h1, hb⟩
        · exact ⟨v2, h2, hc⟩) (by simp)

/-- The simulation loop never completes a trick when fewer than four
cards remain in total, and then returns the tally unchanged. -/
lemma calc_go_short (trump : Option (List Char)) (side : Side) :
    ∀ (rest : List (List Char)) (cur : List (List Char × Nat)) (L acc : Nat),
      cur.length + rest.length < 4 → calc_go trump side rest cur L acc = some acc := by
  intro rest
  induction rest with
  | nil => intro cur L acc _; rfl
  | cons c rest ih =>
    intro cur L acc h
    simp only [calc_go, List.length_append, List.length_cons, List.length_nil]
    rw [if_neg (by simp at h ⊢; omega)]
    exact ih (cur ++ [(c, L)]) ((L + 1) % 4) acc (by simp at h ⊢; omega)

/-- Truncating the play sequence to its complete four-card groups does
not change the simulation loop: the trailing partial trick is never
examined. -/
lemma calc_go_take (trump : Option (List Char)) (side : Side) :
    ∀ (n : Nat) (ps : List (List Char)), ps.length ≤ n → ∀ (L acc : Nat),
      calc_go trump side (ps.take (4 * (ps.length / 4))) [] L acc =
        calc_go trump side ps [] L acc := by
  intro n
  induction n with
  | zero =>
    intro ps hps L acc
    have h0 : ps = [] := List.length_eq_zero.mp (Nat.le_zero.mp hps)
    subst h0; rfl
  | succ n ih =>
    intro ps hps L acc
    match ps with
    | [] => rfl
    | [c1] => simpa using (calc_go_short trump side [c1] [] L acc (by simp)).symm
    | [c1, c2] => simpa using (calc_go_short trump side [c1, c2] [] L acc (by simp)).symm
    | [c1, c2, c3] => simpa using (calc_go_short trump side [c1, c2, c3] [] L acc (by simp)).symm
    | c1 :: c2 :: c3 :: c4 :: rest =>
      have ht : 4 * ((c1 :: c2 :: c3 :: c4 :: rest).length / 4) =
          4 * (rest.length / 4) + 1 + 1 + 1 + 1 := by
        simp only [List.length_cons]
        omega
      rw [ht]
      simp only [List.take_succ_cons]
      rw [calc_go_unroll, calc_go_unroll]
      rcases hw : determine_trick_winner
          [(c1, L), (c2, (L + 1) % 4), (c3, ((L + 1) % 4 + 1) % 4),
           (c4, (((L + 1) % 4 + 1) % 4 + 1) % 4)] trump with _ | ⟨wc, wp⟩
      · simp only [hw]
      · simp only [hw]
        have hr : rest.length ≤ n := by simp at hps; omega
        exact ih rest hr wp _

/-- Witness for C1: Scenario A of the spec - led suit H, cards H9, H2,
HA, D3, trump S - evaluated through the theorem, South (seat index 2,
holding HA) wins. -/
theorem c1_trick_ranking_and_winner_witness :
    determine_trick_winner
        [(['H', '9'], 0), (['H', '2'], 1), (['H', 'A'], 2), (['D', '3'], 3)] (some ['S']) =
      some (['H', 'A'], 2) :=
  ((c1_trick_ranking_and_winner.2.1 'H' ['9'] ['H', '2'] ['H', 'A'] ['D', '3'] 0 1 2 3
      (some ['S']) 9 2 14 0 (by decide) (by decide) (by decide) (by decide)).2.2.1)
    (by decide) (by decide) (by decide)

/-- The tally of the simulation loop grows by at most one per complete
four-card group. -/
lemma calc_go_bound (trump : Option (List Char)) (side : Side) :
    ∀ (ps : List (List Char)) (cur : List (List Char × Nat)) (L acc k : Nat),
      calc_go trump side ps cur L acc = some k →
      k ≤ acc + (cur.length + ps.length) / 4 := by
  intro ps
  induction ps with
  | nil =>
    intro cur L acc k h
    simp only [calc_go, Option.some.injEq] at h
    omega
  | cons c rest ih =>
    intro cur L acc k h
    simp only [calc_go] at h
    by_cases hl : (cur ++ [(c, L)]).length = 4
    · rw [if_pos hl] at h
      rcases hw : determine_trick_winner (cur ++ [(c, L)]) trump with _ | ⟨wc, wp⟩
      · simp only [hw] at h; cases h
      · simp only [hw] at h
        have hb := ih [] wp (if credited side wp then acc + 1 else acc) k h
        simp only [List.length_append, List.length_cons, List.length_nil] at hl
        simp only [List.length_nil, List.length_cons] at hb ⊢
        by_cases hc : credited side wp
        · rw [if_pos hc] at hb; omega
        · rw [if_neg hc] at hb; omega
    · rw [if_neg hl] at h
      have hb := ih (cur ++ [(c, L)]) ((L + 1) % 4) acc k h
      simp only [List.length_append, List.length_cons, List.length_nil] at hb ⊢
      omega

/-- C6: the trick simulator counts only consecutive complete groups of
four cards; a trailing group of fewer than four cards is discarded and
never contributes to the tally; an eleven-card play sequence behaves
exactly as its first eight cards (two complete tricks), and on a
concrete eleven-card sequence the declaring side is credited with
exactly the two complete tricks while the trailing three cards are
ignored. -/
theorem c6_trailing_partial_trick_discarded :
    (∀ (trump : Option (List Char)) (side : Side) (ps : List (List Char)) (L acc : Nat),
      calc_go trump side (ps.take (4 * (ps.length / 4))) [] L acc =
        calc_go trump side ps [] L acc) ∧
    (∀ (ps : List (List Char)) (trump : Option (List Char)) (fp : Nat),
      ps.length = 11 →
      calculate_tricks_won_by_declarer ps trump fp =
        calculate_tricks_won_by_declarer (ps.take 8) trump fp) ∧
    (∀ (trump : Option (List Char)) (side : Side) (ps : List (List Char)) (L acc k : Nat),
      calc_go trump side ps [] L acc = some k → k ≤ acc + ps.length / 4) ∧
    (calculate_tricks_won_by_declarer
        [['S', '2'], ['S', '3'], ['S', '4'], ['S', '5'],
         ['H', '5'], ['H', '2'], ['H', '3'], ['H', '4'],
         ['D', '2'], ['D', '3'], ['D', '4']] none 0 = some (some 2)) := by
  refine ⟨fun trump side ps L acc => calc_go_take trump side ps.length ps le_rfl L acc,
    ?_, ?_, by decide⟩
  · intro ps trump fp hlen
    have hne : ps.isEmpty = false := by
      cases ps
      · simp at hlen
      · rfl
    have hne8 : (ps.take 8).isEmpty = false := by
      cases ps
      · simp at hlen
      · rfl
    have h1 := calc_go_take trump (declarer_side_of fp) ps.length ps le_rfl fp 0
    rw [hlen] at h1
    norm_num at h1
    simp only [calculate_tricks_won_by_declarer, hne, hne8]
    rw [← h1]
  · intro trump side ps L acc k h
    have hb := calc_go_bound trump side ps [] L acc k h
    simpa using hb

/-- Witness for C6: the eleven-card rule of the theorem applied to the
concrete eleven-card play sequence of Scenario E. -/
theorem c6_trailing_partial_trick_discarded_witness :
    calculate_tricks_won_by_declarer
        [['S', '2'], ['S', '3'], ['S', '4'], ['S', '5'],
         ['H', '5'], ['H', '2'], ['H', '3'], ['H', '4'],
         ['D', '2'], ['D', '3'], ['D', '4']] none 0 =
      calculate_tricks_won_by_declarer
        ([['S', '2'], ['S', '3'], ['S', '4'], ['S', '5'],
          ['H', '5'], ['H', '2'], ['H', '3'], ['H', '4'],
          ['D', '2'], ['D', '3'], ['D', '4']].take 8) none 0 :=
  c6_trailing_partial_trick_discarded.2.1 _ none 0 (by decide)

/-- Processing one complete trick changes the declarer-side tally by the
parity rule: with the original first player fixing the declaring side,
the trick is credited exactly when the winner's seat parity differs from
the first player's. -/
lemma calc_go_parity_step (trump : Option (List Char)) (fp : Nat)
    (c1 c2 c3 c4 : List Char) (rest : List (List Char)) (L acc : Nat)
    (wc : List Char) (wp : Nat) (hfp : fp < 4) (hL : L < 4)
    (hw : determine_trick_winner
        [(c1, L), (c2, (L + 1) % 4), (c3, (L + 2) % 4), (c4, (L + 3) % 4)] trump =
      some (wc, wp)) :
    calc_go trump (declarer_side_of fp) (c1 :: c2 :: c3 :: c4 :: rest) [] L acc =
      calc_go trump (declarer_side_of fp) rest [] wp
        (if wp % 2 = fp % 2 then acc else acc + 1) := by
  have e2 : ((L + 1) % 4 + 1) % 4 = (L + 2) % 4 := by omega
  have e3 : ((L + 2) % 4 + 1) % 4 = (L + 3) % 4 := by omega
  rw [calc_go_unroll, e2, e3]
  simp only [hw]
  have hmem := determine_trick_winner_mem _ _ _ hw
  have hwp4 : wp < 4 := by
    simp only [List.mem_cons, List.not_mem_nil, or_false, Prod.mk.injEq] at hmem
    rcases hmem with ⟨_, h⟩ | ⟨_, h⟩ | ⟨_, h⟩ | ⟨_, h⟩ <;> omega
  have hacc : (if credited (declarer_side_of fp) wp then acc + 1 else acc) =
      (if wp % 2 = fp % 2 then acc else acc + 1) := by
    unfold declarer_side_of
    by_cases hside : fp = 0 ∨ fp = 2
    · rw [if_pos hside]
      simp only [credited]
      split_ifs with h1 h2 <;> simp_all <;> omega
    · rw [if_neg hside]
      simp only [credited]
      split_ifs with h1 h2 <;> simp_all <;> omega
  rw [hacc]

/-- C10: the simulator takes the declaring partnership to be the one
not containing the seat that played the first card: the side is East-West
exactly when the opening leader's index is 0 or 2, each complete trick
is credited to that side exactly when the winner's index has the other
parity, and on a single complete trick the simulated count is 1
precisely in that case.  The declaring side is a function of the first
player index alone - the bidding never enters the computation. -/
theorem c10_declarer_side_not_from_bidding :
    (∀ fp : Nat, declarer_side_of fp = Side.EW ↔ (fp = 0 ∨ fp = 2)) ∧
    (∀ (trump : Option (List Char)) (fp : Nat) (c1 c2 c3 c4 : List Char)
        (rest : List (List Char)) (L acc : Nat) (wc : List Char) (wp : Nat),
      fp < 4 → L < 4 →
      determine_trick_winner
          [(c1, L), (c2, (L + 1) % 4), (c3, (L + 2) % 4), (c4, (L + 3) % 4)] trump =
        some (wc, wp) →
      calc_go trump (declarer_side_of fp) (c1 :: c2 :: c3 :: c4 :: rest) [] L acc =
        calc_go trump (declarer_side_of fp) rest [] wp
          (if wp % 2 = fp % 2 then acc else acc + 1)) ∧
    (∀ (trump : Option (List Char)) (fp : Nat) (c1 c2 c3 c4 : List Char)
        (wc : List Char) (wp : Nat),
      fp < 4 →
      determine_trick_winner
          [(c1, fp), (c2, (fp + 1) % 4), (c3, (fp + 2) % 4), (c4, (fp + 3) % 4)] trump =
        some (wc, wp) →
      calculate_tricks_won_by_declarer [c1, c2, c3, c4] trump fp =
        some (some (if wp % 2 = fp % 2 then 0 else 1))) := by
  refine ⟨?_, ?_, ?_⟩
  · intro fp
    unfold declarer_side_of
    split_ifs with h
    · simp [h]
    · simp [h]
  · intro trump fp c1 c2 c3 c4 rest L acc wc wp hfp hL hw
    exact calc_go_parity_step trump fp c1 c2 c3 c4 rest L acc wc wp hfp hL hw
  · intro trump fp c1 c2 c3 c4 wc wp hfp hw
    simp only [calculate_tricks_won_by_declarer, List.isEmpty_cons]
    rw [calc_go_parity_step trump fp c1 c2 c3 c4 [] fp 0 wc wp hfp hfp hw]
    rfl

/-- Witness for C10: Scenario B evaluated through the theorem - opening
leader North (index 0), trump S, SA wins for seat index 2, so the
declaring side East-West is credited with nothing and the simulated
count is 0. -/
theorem c10_declarer_side_not_from_bidding_witness :
    calculate_tricks_won_by_declarer
        [['C', '5'], ['C', '9'], ['S', 'A'], ['C', '2']] (some ['S']) 0 = some (some 0) :=
  c10_declarer_side_not_from_bidding.2.2 (some ['S']) 0
    ['C', '5'] ['C', '9'] ['S', 'A'] ['C', '2'] ['S', 'A'] 2 (by decide) (by decide)

/-- The backward scan of get_trump_from_bidding is the library find? of
the first qualifying bid, with the strain of that bid mapped to the
trump string. -/
lemma trump_scan_find : ∀ l : List (List Char),
    trump_scan l =
      match l.find? bid_qualifies with
      | none => none
      | some bid =>
        match (pystrip bid).map Char.toUpper with
        | _ :: c1 :: _ => suit_map c1
        | _ => none := by
  intro l
  induction l with
  | nil => rfl
  | cons bid rest ih =>
    rcases hu : (pystrip bid).map Char.toUpper with _ | ⟨c0, tl⟩
    · have hq : bid_qualifies bid = false := by simp [bid_qualifies, hu]
      simp only [trump_scan, hu, List.find?_cons, hq, cond_false]
      exact ih
    · rcases tl with _ | ⟨c1, tl2⟩
      · have hq : bid_qualifies bid = false := by simp [bid_qualifies, hu]
        simp only [trump_scan, hu, List.find?_cons, hq, cond_false]
        exact ih
      · by_cases hd : c0.isDigit = true ∧ isStrainChar c1 = true
        · have hq : bid_qualifies bid = true := by
            simp [bid_qualifies, hu, hd.1, hd.2]
          simp only [trump_scan, hu, List.find?_cons, hq, cond_true]
          rw [if_pos hd]
        · have hq : bid_qualifies bid = false := by
            simp only [bid_qualifies, hu, Bool.and_eq_false_iff]
            rcases Decidable.not_and_iff_or_not.mp hd with h | h
            · exact Or.inl (by simpa using h)
            · exact Or.inr (by simpa using h)
          simp only [trump_scan, hu, List.find?_cons, hq, cond_false]
          rw [if_neg hd]
          exact ih

/-- Counterexample for C2: the code's level test is `isdigit`, not the
claimed range 1-7.  On the bid sequence ["9C"] the code yields trump C,
while the claimed rule (no bid with level 1-7 exists) yields an
unresolved trump. -/
theorem c2_trump_level_counterexample :
    get_trump_from_bidding [['9', 'C']] = some ['C'] ∧
    get_trump_spec [['9', 'C']] = none := by decide

/-- C2 (amended): scanning from the last bid toward the first, the
trump is the mapped strain (C, D, H, S pass through, N becomes NT) of
the first bid whose stripped, upper-cased form has at least two
characters with any decimal digit first (not only 1-7) and a strain
letter second; when no bid qualifies - an all-pass auction, an empty
sequence - the trump is unresolved (`none`), not an error.  The code
tracks no declarer at all, so only the trump is derived. -/
theorem c2_trump_from_last_digit_bid :
    (∀ bs : List (List Char),
      get_trump_from_bidding bs =
        match bs.reverse.find? bid_qualifies with
        | none => none
        | some bid =>
          match (pystrip bid).map Char.toUpper with
          | _ :: c1 :: _ => suit_map c1
          | _ => none) ∧
    (∀ bs : List (List Char), (∀ b ∈ bs, bid_qualifies b = false) →
      get_trump_from_bidding bs = none) ∧
    (get_trump_from_bidding [] = none) := by
  have hmain : ∀ bs : List (List Char),
      get_trump_from_bidding bs =
        match bs.reverse.find? bid_qualifies with
        | none => none
        | some bid =>
          match (pystrip bid).map Char.toUpper with
          | _ :: c1 :: _ => suit_map c1
          | _ => none := by
    intro bs
    match bs with
    | [] => rfl
    | b :: rest =>
      simp only [get_trump_from_bidding, List.isEmpty_cons, Bool.false_eq_true, if_false]
      exact trump_scan_find (b :: rest).reverse
  refine ⟨hmain, ?_, rfl⟩
  intro bs hall
  rw [hmain bs]
  have hnone : bs.reverse.find? bid_qualifies = none := by
    rw [List.find?_eq_none]
    intro x hx
    simp [hall x (List.mem_reverse.mp hx)]
  simp only [hnone]

/-- Witness for C2: an all-pass auction evaluated through the theorem
gives an unresolved trump. -/
theorem c2_trump_from_last_digit_bid_witness :
    get_trump_from_bidding [['P'], ['P'], ['P'], ['P']] = none :=
  c2_trump_from_last_digit_bid.2.1 [['P'], ['P'], ['P'], ['P']] (by decide)

/-- C7: an mc token whose value parses as an integer stores that integer
as the board's tricks (an unparsable value is ignored), and at
finalization an explicit trick count takes precedence: the simulator
runs only when no trick count is stored and the play sequence is
nonempty, and when it runs and succeeds its result becomes the
finalized tricks. -/
theorem c7_explicit_tricks_precedence :
    (∀ (st : PState) (data : List Char) (n : Int),
      st.in_board = true → pyInt (pystrip data) = some n →
      pstep st (['m', 'c'], data) =
        some { st with current_board := some (board_set_tricks st.current_board n) } ∧
      (board_set_tricks st.current_board n).tricks = some n) ∧
    (∀ (st : PState) (data : List Char),
      st.in_board = true → pyInt (pystrip data) = none →
      pstep st (['m', 'c'], data) = some st) ∧
    (∀ (b : Board) (hs play bidding : List (List Char)) (n : Int),
      b.tricks = some n →
      finalize_board b hs play bidding =
        some { b with trump := get_trump_from_bidding bidding } ∧
      ({ b with trump := get_trump_from_bidding bidding } : Board).tricks = some n) ∧
    (∀ (b : Board) (hs bidding : List (List Char)),
      finalize_board b hs [] bidding =
        some { b with trump := get_trump_from_bidding bidding }) ∧
    (∀ (b : Board) (hs play bidding : List (List Char)) (fp n : Nat),
      b.tricks = none → play.isEmpty = false →
      determine_first_player (play.headD []) hs = some (some fp) →
      calculate_tricks_won_by_declarer play (get_trump_from_bidding bidding) fp =
        some (some n) →
      finalize_board b hs play bidding =
        some { b with trump := get_trump_from_bidding bidding, tricks := some (n : Int) }) := by
  refine ⟨?_, ?_, ?_, ?_, ?_⟩
  · intro st data n hin hint
    constructor
    · simp [pstep, hin, hint]
    · rcases hb : st.current_board with _ | b <;> simp [board_set_tricks, hb]
  · intro st data hin hint
    simp [pstep, hin, hint]
  · intro b hs play bidding n htr
    constructor
    · simp only [finalize_board]
      rw [if_neg (by simp [htr])]
    · simp [htr]
  · intro b hs bidding
    simp only [finalize_board]
    rw [if_neg (by simp)]
  · intro b hs play bidding fp n htr hpl hfp hcalc
    simp only [finalize_board]
    rw [if_pos ⟨by simp [htr], hpl⟩]
    simp only [hfp, hcalc]

/-- Witness for C7: a board with explicit tricks 7 and an (unusable)
one-character play card finalizes to tricks 7 with the trump from the
bidding - the simulator is skipped, so the bad card is never touched. -/
theorem c7_explicit_tricks_precedence_witness :
    finalize_board
        { hands := some [['a'], ['b'], ['c'], ['d']], first_card := none,
          tricks := some 7, trump := none }
        [['a'], ['b'], ['c'], ['d']] [['S']] [['1', 'C']] =
      some { hands := some [['a'], ['b'], ['c'], ['d']], first_card := none,
             tricks := some 7, trump := some ['C'] } ∧
    ({ hands := some [['a'], ['b'], ['c'], ['d']], first_card := none,
       tricks := some 7, trump := some ['C'] } : Board).tricks = some 7 :=
  c7_explicit_tricks_precedence.2.2.1
    { hands := some [['a'], ['b'], ['c'], ['d']], first_card := none,
      tricks := some 7, trump := none }
    [['a'], ['b'], ['c'], ['d']] [['S']] [['1', 'C']] 7 rfl

/-- A card of at least two characters always has a value. -/
lemma get_card_value_wf (card : List Char) (led : Char) (trump : Option (List Char))
    (h : 2 ≤ card.length) : ∃ v, get_card_value card led trump = some v := by
  rcases card with _ | ⟨c0, _ | ⟨c1, rest⟩⟩
  · simp at h
  · simp at h
  · simp only [get_card_value]
    split_ifs <;> exact ⟨_, rfl⟩

/-- The winner loop never raises over cards of at least two characters. -/
lemma winner_loop_some (led : Char) (trump : Option (List Char)) :
    ∀ (rest : List (List Char × Nat)) (wc : List Char) (wp wv : Nat),
      (∀ cp ∈ rest, 2 ≤ cp.1.length) →
      ∃ w, winner_loop led trump rest wc wp wv = some w := by
  intro rest
  induction rest with
  | nil => intro wc wp wv _; exact ⟨_, rfl⟩
  | cons cp rest ih =>
    intro wc wp wv h
    obtain ⟨c, p⟩ := cp
    obtain ⟨v, hv⟩ := get_card_value_wf c led trump (h (c, p) (by simp))
    simp only [winner_loop, hv]
    by_cases hcmp : wv < v
    · rw [if_pos hcmp]; exact ih c p v (fun x hx => h x (by simp [hx]))
    · rw [if_neg hcmp]; exact ih wc wp wv (fun x hx => h x (by simp [hx]))

/-- A nonempty trick of cards of at least two characters always has a
winner. -/
lemma determine_trick_winner_some (trick : List (List Char × Nat))
    (trump : Option (List Char)) (hne : trick ≠ [])
    (h : ∀ cp ∈ trick, 2 ≤ cp.1.length) :
    ∃ w, determine_trick_winner trick trump = some w := by
  match trick with
  | [] => exact absurd rfl hne
  | (c0, p0) :: rest =>
    have h0 : 2 ≤ c0.length := h (c0, p0) (by simp)
    rcases c0 with _ | ⟨s, tl⟩
    · simp at h0
    · simp only [determine_trick_winner]
      obtain ⟨v0, hv0⟩ := get_card_value_wf (s :: tl) s.toUpper trump (by simpa using h0)
      simp only [hv0]
      exact winner_loop_some s.toUpper trump rest (s :: tl) p0 v0
        (fun cp hcp => h cp (by simp [hcp]))

/-- The simulation loop never raises over cards of at least two
characters. -/
lemma calc_go_some (trump : Option (List Char)) (side : Side) :
    ∀ (ps : List (List Char)) (cur : List (List Char × Nat)) (L acc : Nat),
      (∀ c ∈ ps, 2 ≤ c.length) → (∀ cp ∈ cur, 2 ≤ cp.1.length) →
      ∃ n, calc_go trump side ps cur L acc = some n := by
  intro ps
  induction ps with
  | nil => intro cur L acc _ _; exact ⟨acc, rfl⟩
  | cons c rest ih =>
    intro cur L acc hps hcur
    simp only [calc_go]
    have hcur2 : ∀ cp ∈ cur ++ [(c, L)], 2 ≤ cp.1.length := by
      intro cp hcp
      rcases List.mem_append.mp hcp with hm | hm
      · exact hcur cp hm
      · simp only [List.mem_singleton] at hm
        subst hm
        simpa using hps c (by simp)
    by_cases hl : (cur ++ [(c, L)]).length = 4
    · rw [if_pos hl]
      obtain ⟨w, hw⟩ := determine_trick_winner_some (cur ++ [(c, L)]) trump (by simp) hcur2
      obtain ⟨wc, wp⟩ := w
      simp only [hw]
      exact ih [] wp _ (fun x hx => hps x (by simp [hx])) (by simp)
    · rw [if_neg hl]
      exact ih (cur ++ [(c, L)]) ((L + 1) % 4) acc (fun x hx => hps x (by simp [hx])) hcur2

/-- The trick calculation never raises over cards of at least two
characters. -/
lemma calculate_some (ps : List (List Char)) (trump : Option (List Char)) (fp : Nat)
    (h : ∀ c ∈ ps, 2 ≤ c.length) :
    ∃ r, calculate_tricks_won_by_declarer ps trump fp = some r := by
  simp only [calculate_tricks_won_by_declarer]
  by_cases he : ps.isEmpty = true
  · rw [if_pos he]; exact ⟨none, rfl⟩
  · rw [if_neg he]
    obtain ⟨n, hn⟩ := calc_go_some trump (declarer_side_of fp) ps [] fp 0 h (by simp)
    exact ⟨some n, by simp only [hn]⟩

/-- The hand lookup never raises when the card has at least two
characters. -/
lemma hand_contains_card_some (hand card : List Char) (h : 2 ≤ card.length) :
    ∃ r, hand_contains_card hand card = some r := by
  rcases card with _ | ⟨c0, _ | ⟨c1, rest⟩⟩
  · simp at h
  · simp at h
  · exact ⟨_, rfl⟩

/-- The hand scan never raises when the card has at least two
characters. -/
lemma first_player_scan_some (card : List Char) (h : 2 ≤ card.length) :
    ∀ (hands : List (List Char)) (i : Nat), ∃ r, first_player_scan card hands i = some r := by
  intro hands
  induction hands with
  | nil => intro i; exact ⟨none, rfl⟩
  | cons hd rest ih =>
    intro i
    obtain ⟨b, hb⟩ := hand_contains_card_some hd card h
    cases b
    · simp only [first_player_scan, hb]
      exact ih (i + 1)
    · exact ⟨some i, by simp only [first_player_scan, hb]⟩

/-- The first-player search never raises when the card has at least two
characters. -/
lemma determine_first_player_some (card : List Char) (hands : List (List Char))
    (h : 2 ≤ card.length) : ∃ r, determine_first_player card hands = some r := by
  simp only [determine_first_player]
  by_cases he : card.isEmpty = true ∨ hands.isEmpty = true
  · rw [if_pos he]; exact ⟨none, rfl⟩
  · rw [if_neg he]; exact first_player_scan_some card h hands 0

/-- Finalization never raises when every play card has at least two
characters. -/
lemma finalize_board_some (b : Board) (hs play bidding : List (List Char))
    (h : ∀ c ∈ play, 2 ≤ c.length) : ∃ b2, finalize_board b hs play bidding = some b2 := by
  simp only [finalize_board]
  by_cases hc : b.tricks = none ∧ play.isEmpty = false
  · rw [if_pos hc]
    have hhead : 2 ≤ (play.headD []).length := by
      rcases play with _ | ⟨c, rest⟩
      · simp at hc
      · simpa using h c (by simp)
    obtain ⟨r, hr⟩ := determine_first_player_some (play.headD []) hs hhead
    rcases r with _ | fp
    · simp only [hr]; exact ⟨_, rfl⟩
    · simp only [hr]
      obtain ⟨cr, hcr⟩ := calculate_some play (get_trump_from_bidding bidding) fp h
      rcases cr with _ | n
      · simp only [hcr]; exact ⟨_, rfl⟩
      · simp only [hcr]; exact ⟨_, rfl⟩
  · rw [if_neg hc]
    exact ⟨_, rfl⟩

/-- The flush never raises when every play card has at least two
characters. -/
lemma flush_board_some (st : PState) (h : ∀ c ∈ st.play, 2 ≤ c.length) :
    ∃ st2, flush_board st = some st2 := by
  simp only [flush_board]
  rcases hcb : st.current_board with _ | b
  · exact ⟨_, rfl⟩
  · rcases hh : b.hands with _ | hs
    · simp only [hh]
      exact ⟨_, rfl⟩
    · simp only [hh]
      by_cases hemp : hs.isEmpty = true
      · rw [if_pos hemp]; exact ⟨_, rfl⟩
      · rw [if_neg hemp]
        obtain ⟨b2, hb2⟩ := finalize_board_some b hs st.play st.bidding h
        simp only [hb2]
        split_ifs <;> exact ⟨_, rfl⟩

/-- Finalization changes only the trump and tricks fields of a board. -/
lemma finalize_board_fields (b : Board) (hs play bidding : List (List Char)) (b2 : Board)
    (h : finalize_board b hs play bidding = some b2) :
    b2.hands = b.hands ∧ b2.first_card = b.first_card := by
  simp only [finalize_board] at h
  split_ifs at h with hc
  · rcases hr : determine_first_player (play.headD []) hs with _ | r
    · simp only [hr] at h
      cases h
    · rcases r with _ | fp
      · simp only [hr] at h
        obtain rfl := Option.some.inj h
        exact ⟨rfl, rfl⟩
      · simp only [hr] at h
        rcases hcr : calculate_tricks_won_by_declarer play (get_trump_from_bidding bidding) fp
          with _ | cr
        · simp only [hcr] at h
          cases h
        · rcases cr with _ | n
          · simp only [hcr] at h
            obtain rfl := Option.some.inj h
            exact ⟨rfl, rfl⟩
          · simp only [hcr] at h
            obtain rfl := Option.some.inj h
            exact ⟨rfl, rfl⟩
  · obtain rfl := Option.some.inj h
    exact ⟨rfl, rfl⟩

/-- The flush preserves the parser invariant. -/
lemma flush_board_inv (st st2 : PState) (hInv : ParseInv st)
    (h : flush_board st = some st2) : ParseInv st2 := by
  simp only [flush_board] at h
  rcases hcb : st.current_board with _ | b
  · rw [hcb] at h
    obtain rfl := Option.some.inj h
    exact ⟨hInv.1, by simp [reset_after_flush]⟩
  · rw [hcb] at h
    simp only at h
    rcases hh : b.hands with _ | hs
    · simp only [hh] at h
      obtain rfl := Option.some.inj h
      exact ⟨hInv.1, by simp [reset_after_flush]⟩
    · simp only [hh] at h
      split_ifs at h with hemp
      · obtain rfl := Option.some.inj h
        exact ⟨hInv.1, by simp [reset_after_flush]⟩
      · rcases hfin : finalize_board b hs st.play st.bidding with _ | b2
        · simp only [hfin] at h
          cases h
        · simp only [hfin] at h
          split_ifs at h with hcond
          · obtain rfl := Option.some.inj h
            refine ⟨?_, by simp [reset_after_flush]⟩
            intro x hx
            rcases List.mem_append.mp hx with hm | hm
            · exact hInv.1 x hm
            · simp only [List.mem_singleton] at hm
              subst hm
              have hfields := finalize_board_fields b hs st.play st.bidding x hfin
              refine ⟨⟨hs, ?_, hInv.2 b hs hcb hh⟩, hcond⟩
              rw [hfields.1, hh]
          · obtain rfl := Option.some.inj h
            exact ⟨hInv.1, by simp [reset_after_flush]⟩

/-- Setting the hands stores exactly the given list. -/
lemma board_set_hands_hands (ob : Option Board) (hs : List (List Char)) :
    (board_set_hands ob hs).hands = some hs := by
  rcases ob with _ | b <;> simp [board_set_hands]

/-- Setting the first card leaves the hands unchanged. -/
lemma board_set_first_card_hands (ob : Option Board) (c : List Char) :
    (board_set_first_card ob c).hands = match ob with | none => none | some b => b.hands := by
  rcases ob with _ | b <;> simp [board_set_first_card]

/-- Setting the tricks leaves the hands unchanged. -/
lemma board_set_tricks_hands (ob : Option Board) (n : Int) :
    (board_set_tricks ob n).hands = match ob with | none => none | some b => b.hands := by
  rcases ob with _ | b <;> simp [board_set_tricks]

/-- Each token step preserves the parser invariant. -/
lemma pstep_inv (st st2 : PState) (tok : List Char × List Char) (hInv : ParseInv st)
    (h : pstep st tok = some st2) : ParseInv st2 := by
  obtain ⟨tag, data⟩ := tok
  simp only [pstep] at h
  by_cases h1 : tag = ['q', 'x']
  · rw [if_pos h1] at h
    rcases hf : flush_board st with _ | st1
    · simp only [hf] at h
      cases h
    · simp only [hf] at h
      obtain rfl := Option.some.inj h
      have hInv1 := flush_board_inv st st1 hInv hf
      refine ⟨hInv1.1, ?_⟩
      intro b hs hcb hh
      simp only [Option.some.injEq] at hcb
      rw [← hcb] at hh
      simp at hh
  · rw [if_neg h1] at h
    by_cases h2 : tag = ['m', 'd'] ∧ st.in_board = true
    · rw [if_pos h2] at h
      by_cases h4 : (pysplit ',' data).length = 4
      · rw [if_pos h4] at h
        obtain rfl := Option.some.inj h
        refine ⟨hInv.1, ?_⟩
        intro b hs hcb hh
        simp only [Option.some.injEq] at hcb
        rw [← hcb, board_set_hands_hands] at hh
        obtain rfl := Option.some.inj hh
        exact h4
      · rw [if_neg h4] at h
        obtain rfl := Option.some.inj h
        exact hInv
    · rw [if_neg h2] at h
      by_cases h3 : tag = ['m', 'b'] ∧ st.in_board = true
      · rw [if_pos h3] at h
        obtain rfl := Option.some.inj h
        exact ⟨hInv.1, fun b hs hcb hh => hInv.2 b hs hcb hh⟩
      · rw [if_neg h3] at h
        by_cases h5 : tag = ['p', 'c'] ∧ st.in_board = true
        · rw [if_pos h5] at h
          by_cases h6 : board_get_first_card st.current_board = none
          · rw [if_pos h6] at h
            obtain rfl := Option.some.inj h
            refine ⟨hInv.1, ?_⟩
            intro b hs hcb hh
            simp only [Option.some.injEq] at hcb
            rw [← hcb, board_set_first_card_hands] at hh
            rcases hob : st.current_board with _ | b0
            · rw [hob] at hh; cases hh
            · rw [hob] at hh
              exact hInv.2 b0 hs hob hh
          · rw [if_neg h6] at h
            obtain rfl := Option.some.inj h
            exact ⟨hInv.1, fun b hs hcb hh => hInv.2 b hs hcb hh⟩
        · rw [if_neg h5] at h
          by_cases h7 : tag = ['m', 'c'] ∧ st.in_board = true
          · rw [if_pos h7] at h
            rcases hpi : pyInt (pystrip data) with _ | n
            · simp only [hpi] at h
              obtain rfl := Option.some.inj h
              exact hInv
            · simp only [hpi] at h
              obtain rfl := Option.some.inj h
              refine ⟨hInv.1, ?_⟩
              intro b hs hcb hh
              simp only [Option.some.injEq] at hcb
              rw [← hcb, board_set_tricks_hands] at hh
              rcases hob : st.current_board with _ | b0
              · rw [hob] at hh; cases hh
              · rw [hob] at hh
                exact hInv.2 b0 hs hob hh
          · rw [if_neg h7] at h
            obtain rfl := Option.some.inj h
            exact hInv

/-- Folding the token steps preserves the parser invariant. -/
lemma foldlM_pstep_inv :
    ∀ (toks : List (List Char × List Char)) (st : PState), ParseInv st →
      ∀ st2, List.foldlM pstep st toks = some st2 → ParseInv st2 := by
  intro toks
  induction toks with
  | nil =>
    intro st h st2 hfold
    simp only [List.foldlM_nil] at hfold
    obtain rfl := Option.some.inj hfold
    exact h
  | cons t ts ih =>
    intro st h st2 hfold
    rw [List.foldlM_cons] at hfold
    rcases hs1 : pstep st t with _ | st1
    · rw [hs1] at hfold
      cases hfold
    · rw [hs1] at hfold
      simp only [Option.bind_eq_bind, Option.some_bind] at hfold
      exact ih st1 (pstep_inv st st1 t h hs1) st2 hfold

/-- A finalized board meeting the emission condition is appended. -/
lemma flush_board_emits (st : PState) (b : Board) (hs : List (List Char)) (b2 : Board)
    (hcb : st.current_board = some b) (hh : b.hands = some hs) (hemp : hs.isEmpty = false)
    (hfin : finalize_board b hs st.play st.bidding = some b2)
    (hcond : b2.tricks ≠ none ∨ truthyStr b2.first_card = true) :
    flush_board st = some (reset_after_flush (st.boards ++ [b2])) := by
  simp only [flush_board, hcb, hh, hfin]
  rw [if_neg (by simp [hemp]), if_pos hcond]

/-- A finalized board failing the emission condition is dropped. -/
lemma flush_board_drops (st : PState) (b : Board) (hs : List (List Char)) (b2 : Board)
    (hcb : st.current_board = some b) (hh : b.hands = some hs) (hemp : hs.isEmpty = false)
    (hfin : finalize_board b hs st.play st.bidding = some b2)
    (htr : b2.tricks = none) (hfc : truthyStr b2.first_card = false) :
    flush_board st = some (reset_after_flush st.boards) := by
  simp only [flush_board, hcb, hh, hfin]
  rw [if_neg (by simp [hemp]), if_neg (by simp [htr, hfc])]

/-- C5 (amended): every emitted board has its four hands present and a
trick count or a truthy opening lead; when every card token of the play
sequence has at least two characters, finalization never raises; and at
the flush a finalized board is appended exactly when the emission
condition holds and is dropped otherwise.  (Unconditional absence of
fatal conditions is refuted separately: a one-character card token makes
finalization raise.) -/
theorem c5_emission_requires_hands_and_outcome :
    (∀ (toks : List (List Char × List Char)) (bs : List Board),
      parse_bridge_tokens toks = some bs → ∀ b ∈ bs, EmitOK b) ∧
    (∀ st : PState, (∀ c ∈ st.play, 2 ≤ c.length) → ∃ st2, flush_board st = some st2) ∧
    (∀ (st : PState) (b : Board) (hs : List (List Char)) (b2 : Board),
      st.current_board = some b → b.hands = some hs → hs.isEmpty = false →
      finalize_board b hs st.play st.bidding = some b2 →
      (b2.tricks ≠ none ∨ truthyStr b2.first_card = true) →
      flush_board st = some (reset_after_flush (st.boards ++ [b2]))) ∧
    (∀ (st : PState) (b : Board) (hs : List (List Char)) (b2 : Board),
      st.current_board = some b → b.hands = some hs → hs.isEmpty = false →
      finalize_board b hs st.play st.bidding = some b2 →
      b2.tricks = none → truthyStr b2.first_card = false →
      flush_board st = some (reset_after_flush st.boards)) := by
  refine ⟨?_, flush_board_some, flush_board_emits, flush_board_drops⟩
  intro toks bs h
  simp only [parse_bridge_tokens] at h
  rcases hf : List.foldlM pstep init_pstate toks with _ | st
  · rw [hf] at h
    cases h
  · rw [hf] at h
    rcases hfl : flush_board st with _ | st2
    · simp only [hfl] at h
      cases h
    · simp only [hfl] at h
      obtain rfl := Option.some.inj h
      have hInit : ParseInv init_pstate := ⟨by simp [init_pstate], by simp [init_pstate]⟩
      have hInv := flush_board_inv st st2
        (foldlM_pstep_inv toks init_pstate hInit st hf) hfl
      exact hInv.1

/-- Counterexample for C5: finalization can raise a fatal condition -
a board with hands, no explicit trick count and the one-character play
card "S" makes flush_board raise (IndexError on card[1] inside
hand_contains_card), so emission does not judge every board
independently of failures. -/
theorem c5_finalization_raises_counterexample :
    flush_board
        { boards := [],
          current_board := some { hands := some [['a'], ['b'], ['c'], ['d']],
                                  first_card := some ['S'], tricks := none, trump := none },
          play := [['S']], bidding := [], in_board := true } = none := by decide

/-- Witness for C5: the no-raise part of the theorem applied to a
concrete state whose play cards are well-formed. -/
theorem c5_emission_requires_hands_and_outcome_witness :
    ∃ st2, flush_board
        { boards := [],
          current_board := some { hands := some [['a'], ['b'], ['c'], ['d']],
                                  first_card := some ['C', '5'], tricks := none, trump := none },
          play := [['C', '5']], bidding := [], in_board := true } = some st2 :=
  c5_emission_requires_hands_and_outcome.2.1
    { boards := [],
      current_board := some { hands := some [['a'], ['b'], ['c'], ['d']],
                              first_card := some ['C', '5'], tricks := none, trump := none },
      play := [['C', '5']], bidding := [], in_board := true } (by decide)

/-- Any token produced by the head matcher carries one of the five
lowercase tags of the regex. -/
lemma matchToken_tag : ∀ (l : List Char) (tok : List Char × List Char) (after : List Char),
    matchToken l = some (tok, after) → tok.1 ∈ tag_candidates := by
  intro l tok after h
  rcases l with _ | ⟨t0, _ | ⟨t1, _ | ⟨c2, rest⟩⟩⟩
  · cases h
  · cases h
  · cases h
  · simp only [matchToken] at h
    split_ifs at h with h1 h2
    rcases hd : List.drop (List.takeWhile (fun c => ¬ c = '|') rest).length rest
      with _ | ⟨c3, after2⟩
    · simp only [hd] at h
      exact Option.noConfusion h
    · simp only [hd] at h
      split_ifs at h with hc3
      have htok : tok = ([t0, t1], List.takeWhile (fun c => ¬ c = '|') rest) :=
        congrArg Prod.fst (Option.some.inj h.symm)
      rw [htok]
      exact h1.2

/-- Every token produced by the tokenizer scan carries one of the five
lowercase tags. -/
lemma tokenizeGo_tags : ∀ (fuel : Nat) (l : List Char) (tok : List Char × List Char),
    tok ∈ tokenizeGo fuel l → tok.1 ∈ tag_candidates := by
  intro fuel
  induction fuel with
  | zero => intro l tok h; simp [tokenizeGo] at h
  | succ fuel ih =>
    intro l tok h
    rcases l with _ | ⟨c, rest⟩
    · simp [tokenizeGo] at h
    · simp only [tokenizeGo] at h
      rcases hm : matchToken (c :: rest) with _ | ⟨tok2, after⟩
      · simp only [hm] at h
        exact ih rest tok h
      · simp only [hm] at h
        simp only [List.mem_cons] at h
        rcases h with rfl | h
        · exact matchToken_tag (c :: rest) tok after hm
        · exact ih after tok h

/-- Counterexample for C9: tag matching is case-sensitive, not
case-insensitive - the same board transcript with `md` spelled `MD`
loses its hands tag entirely, so the board is dropped instead of
emitted: the resulting board fields differ between the two spellings. -/
theorem c9_tag_case_counterexample :
    parse_bridge_file [("qx|o1|md|a,b,c,d|mc|7|").toList] =
      some [{ hands := some [['a'], ['b'], ['c'], ['d']], first_card := none,
              tricks := some 7, trump := none }] ∧
    parse_bridge_file [("qx|o1|MD|a,b,c,d|mc|7|").toList] = some [] := by decide

/-- C9 (amended): tokenization is case-sensitive in the tag: only the
exact lowercase tags qx, md, mb, pc, mc are ever matched, no
lower-casing occurs before dispatch, and a token whose tag differs in
letter case (for example MD) is not recognized at all. -/
theorem c9_tag_matching_case_sensitive :
    (∀ (l : List Char) (tok : List Char × List Char),
      tok ∈ tokenize l → tok.1 ∈ tag_candidates) ∧
    tokenize (("md|a,b,c,d|").toList) = [(['m', 'd'], ("a,b,c,d").toList)] ∧
    tokenize (("MD|a,b,c,d|").toList) = [] := by
  exact ⟨fun l tok h => tokenizeGo_tags l.length l tok h, by decide, by decide⟩

/-- Witness for C9: the tag of the single token of a concrete line,
evaluated through the theorem, is one of the five lowercase tags. -/
theorem c9_tag_matching_case_sensitive_witness :
    (['m', 'c'], ['7']).1 ∈ tag_candidates :=
  c9_tag_matching_case_sensitive.1 (("mc|7|").toList) (['m', 'c'], ['7']) (by decide)

/-- C3 evaluation: a transcript whose second board has a one-character
card token (pc|S|) makes the whole parse raise at that board's
finalization (IndexError on card[1] in hand_contains_card): the run
aborts, and neither the prior valid board (explicit 7 tricks) nor the
subsequent valid board is emitted - contradicting per-board failure
isolation. -/
theorem c3_whole_parse_aborts_on_short_card :
    parse_bridge_file
        [("qx|o1|md|a,b,c,d|mc|7|qx|o2|md|a,b,c,d|pc|S|qx|o3|md|e,f,g,h|mc|9|").toList] =
      none := by decide

/-- Counterexample for C4: a board whose hand string is "XQ2" (invalid
suit letter X) is not dropped - it is emitted with its hands stored
verbatim and only the simulated trick count missing, between the two
valid neighbouring boards; no "malformed hand" reason exists anywhere
in the code. -/
theorem c4_malformed_hand_emitted_counterexample :
    parse_bridge_file
        [("qx|o1|md|a,b,c,d|mc|7|qx|o2|md|XQ2,b,c,d|pc|C5|qx|o3|md|e,f,g,h|mc|9|").toList] =
      some
        [{ hands := some [['a'], ['b'], ['c'], ['d']], first_card := none,
           tricks := some 7, trump := none },
         { hands := some [['X', 'Q', '2'], ['b'], ['c'], ['d']], first_card := some ['C', '5'],
           tricks := none, trump := none },
         { hands := some [['e'], ['f'], ['g'], ['h']], first_card := none,
           tricks := some 9, trump := none }] := by decide

/-- C4 (amended): a hand string with an invalid suit letter such as
"XQ2" is never validated or dropped for malformation and no reason is
recorded: the regex scan simply finds no suit group in it, so the first
card's owner is not found and no trick count is simulated; the board is
still emitted when it has an opening lead (or explicit tricks) and is
dropped only when it lacks both; prior and subsequent valid boards are
unaffected either way. -/
theorem c4_malformed_hand_not_validated :
    (∀ (s r : Char) (t : List Char),
      hand_contains_card (("XQ2").toList) (s :: r :: t) = some false) ∧
    parse_bridge_file
        [("qx|b1|md|a,b,c,d|mc|8|qx|b2|md|XQ2,b,c,d|pc|C5|qx|b3|md|e,f,g,h|mc|6|").toList] =
      some
        [{ hands := some [['a'], ['b'], ['c'], ['d']], first_card := none,
           tricks := some 8, trump := none },
         { hands := some [['X', 'Q', '2'], ['b'], ['c'], ['d']], first_card := some ['C', '5'],
           tricks := none, trump := none },
         { hands := some [['e'], ['f'], ['g'], ['h']], first_card := none,
           tricks := some 6, trump := none }] ∧
    parse_bridge_file [("qx|b4|md|XQ2,b,c,d|").toList] = some [] := by
  refine ⟨?_, by decide, by decide⟩
  intro s r t
  rfl

/-- One-pass assignment of a concatenation splits at the concatenation
point, with the rotation offset advanced by the first part's length. -/
lemma assign_all_append (start : Nat) :
    ∀ (xs ys : List (List Char)) (k : Nat),
      assign_all start k (xs ++ ys) =
        assign_all start k xs ++ assign_all start (k + xs.length) ys := by
  intro xs
  induction xs with
  | nil => intro ys k; simp [assign_all]
  | cons x xs ih =>
    intro ys k
    simp only [List.cons_append, assign_all, List.length_cons, List.append_eq]
    rw [ih ys (k + 1)]
    have he : k + 1 + xs.length = k + (xs.length + 1) := by omega
    rw [he]

/-- One-pass assignment preserves the number of bids. -/
lemma assign_all_length (start : Nat) :
    ∀ (ts : List (List Char)) (k : Nat), (assign_all start k ts).length = ts.length := by
  intro ts
  induction ts with
  | nil => intro k; rfl
  | cons t ts ih => intro k; simp [assign_all, ih (k + 1)]

/-- While the seat order is unknown, bids only accumulate in the
pending buffer. -/
lemma acc_run_bids_unknown :
    ∀ (bs : List (List Char)) (st : AccState), st.seat_order = none →
      List.foldl acc_step st (bs.map BEvent.bid) =
        { seat_order := none, pending := st.pending ++ bs, assigned := st.assigned } := by
  intro bs
  induction bs with
  | nil =>
    intro st h
    obtain ⟨so, p, a⟩ := st
    simp only at h
    subst h
    simp
  | cons b bs ih =>
    intro st h
    simp only [List.map_cons, List.foldl_cons, acc_step, h]
    rw [ih _ rfl]
    simp

/-- Once the seat order is known, bids are assigned live, continuing
the rotation after the already-assigned bids. -/
lemma acc_run_bids_known :
    ∀ (bs : List (List Char)) (st : AccState) (start : Nat), st.seat_order = some start →
      List.foldl acc_step st (bs.map BEvent.bid) =
        { seat_order := some start, pending := st.pending,
          assigned := st.assigned ++ assign_all start st.assigned.length bs } := by
  intro bs
  induction bs with
  | nil =>
    intro st start h
    obtain ⟨so, p, a⟩ := st
    simp only at h
    subst h
    simp [assign_all]
  | cons b bs ih =>
    intro st start h
    simp only [List.map_cons, List.foldl_cons, acc_step, h]
    rw [ih _ start rfl]
    simp only [List.length_append, List.length_cons, List.length_nil, assign_all,
      List.append_assoc, List.cons_append, List.nil_append]

/-- C8: with the seat-assignment machinery modelled from the spec
(absent from src/preprocess/main.py, which stores bids without seats),
buffering bids before the hands tag and retroactively assigning them in
one pass yields exactly the same seat-assigned bid sequence as if the
hands tag had arrived before all the bids, for every split of the same
bid token sequence, and the one pass empties the buffer before any
further live bids are assigned. -/
theorem c8_seat_assignment_order_independent :
    (∀ (d : Nat) (xs ys : List (List Char)),
      (acc_run (xs.map BEvent.bid ++ [BEvent.hands d] ++ ys.map BEvent.bid)).assigned =
        (acc_run (BEvent.hands d :: (xs ++ ys).map BEvent.bid)).assigned) ∧
    (∀ (st : AccState) (d : Nat), (acc_step st (BEvent.hands d)).pending = []) := by
  constructor
  · intro d xs ys
    unfold acc_run
    rw [List.foldl_append, List.foldl_append, List.foldl_cons]
    rw [acc_run_bids_unknown xs acc_init rfl]
    simp only [List.foldl_cons, List.foldl_nil, acc_step]
    rw [acc_run_bids_known ys _ (d - 1) rfl, acc_run_bids_known (xs ++ ys) _ (d - 1) rfl]
    simp only [acc_init, List.nil_append, List.length_nil, assign_all_length,
      assign_all_append]
    simp [assign_all]
  · intro st d
    rfl
